import Mathlib

/-!
Verification of the prompt-optimization engine of this repository
(`src/optimization/optimizer.py`, class `AdvancedPromptOptimizer`).

Texts are modelled as `List Char` (Python `str`, restricted to the ASCII
fragment the rules exercise).  Python float arithmetic in the improvement
estimate and the quality classification is modelled exactly over `ℚ`.
Python's `re.sub` with the flags and pattern shapes used by the source
(word boundaries, case-insensitive literals, greedy `\s+` runs) is
modelled by a small deterministic matcher: every pattern appearing in the
source consumes at least one character at each match, so the engine never
has to consider zero-width matches.  Code paths that raise in Python
(`ZeroDivisionError` on a zero-length denominator) are modelled by an
`Option` result, `none` standing for the raised exception.
-/

namespace Optimizer

/-- Python `str` modelled as a list of characters. -/
abbrev Str := List Char

/-- Character-list literal of a Lean string literal. -/
def str (s : String) : Str := s.data

/-- ASCII apostrophe, used by the pattern for the contraction in
`remove_redundant_instructions`. -/
def apos : Char := Char.ofNat 39

/-- ASCII lower-casing, modelling `str.lower` / `re.IGNORECASE` on the
character range the rules use. -/
def asciiLower (c : Char) : Char :=
  if 'A' ≤ c ∧ c ≤ 'Z' then Char.ofNat (c.toNat + 32) else c

/-- Python `\s` on the ASCII range: space, tab, newline, carriage return,
vertical tab, form feed. -/
def isPySpace (c : Char) : Bool :=
  c = ' ' || c = Char.ofNat 9 || c = Char.ofNat 10 || c = Char.ofNat 13 ||
  c = Char.ofNat 11 || c = Char.ofNat 12

/-- Python `\w` on the ASCII range: letters, digits, underscore. -/
def isWordChar (c : Char) : Bool :=
  ('a' ≤ asciiLower c && asciiLower c ≤ 'z') || ('0' ≤ c && c ≤ '9') || c = Char.ofNat 95

/-- Lower-case every character (`str.lower`). -/
def lowerStr (s : Str) : Str := s.map asciiLower

/-- One atom of a compiled pattern.  The source only ever uses literal
characters (matched case-insensitively because every `re.sub` call passes
`re.IGNORECASE`), the word-boundary anchor `\b`, and greedy `\s+`. -/
inductive Atom
  | lit (c : Char)
  | wordB
  | wsPlus
deriving DecidableEq

/-- A compiled pattern is a sequence of atoms. -/
abbrev Pat := List Atom

/-- Literal atoms of a phrase. -/
def lits (s : Str) : Pat := s.map Atom.lit

/-- Minimal number of characters any match of the pattern consumes:
each literal consumes one, each `\s+` at least one, `\b` none. -/
def minLen : Pat → Nat
  | [] => 0
  | Atom.wordB :: as => minLen as
  | _ :: as => minLen as + 1

/-- Whether an optional preceding character is a word character
(string start counts as a non-word position for `\b`). -/
def isWordOpt : Option Char → Bool
  | none => false
  | some c => isWordChar c

/-- Whether the next character of the remaining text is a word character
(string end counts as a non-word position for `\b`). -/
def isWordHead : Str → Bool
  | [] => false
  | c :: _ => isWordChar c

/-- Greedy munch of a whitespace run: given the last whitespace character
consumed so far and the remaining text, consume all further whitespace.
Returns the last character consumed and the remaining text. -/
def munch : Char → Str → Char × Str
  | last, [] => (last, [])
  | last, d :: rest => if isPySpace d then munch d rest else (last, d :: rest)

/-- Match a pattern at the current position.  `prev` is the character
just before the position in the subject (for `\b`).  On success returns
the new `prev` (last character consumed) and the remaining text.
Deterministic: in every pattern of the source a `\s+` is followed by a
non-whitespace literal or the pattern end, so greedy matching without
backtracking agrees with Python's engine. -/
def matchAtoms : Pat → Option Char → Str → Option (Option Char × Str)
  | [], prev, s => some (prev, s)
  | Atom.lit c :: as, prev, s =>
    match s with
    | [] => none
    | d :: rest =>
      if asciiLower d = asciiLower c then matchAtoms as (some d) rest else none
  | Atom.wordB :: as, prev, s =>
    if isWordOpt prev ≠ isWordHead s then matchAtoms as prev s else none
  | Atom.wsPlus :: as, prev, s =>
    match s with
    | [] => none
    | d :: rest =>
      if isPySpace d then
        matchAtoms as (some (munch d rest).1) (munch d rest).2
      else none

/-- Fueled global substitution: scan left to right over the original
subject, replace each (leftmost, non-overlapping) match by `r`, resume
after the matched characters.  Matches of the source's patterns always
consume at least one character, so a (never occurring) zero-width match
is treated as no match.  `fuel` bounds the number of steps; it is always
called with more fuel than the subject length, so the fuel-exhaustion
branch is dead code. -/
def gsubAux : Nat → Pat → Str → Option Char → Str → Str
  | 0, _, _, _, s => s
  | Nat.succ fuel, p, r, prev, s =>
    match s with
    | [] => []
    | c :: rest =>
      match matchAtoms p prev (c :: rest) with
      | some (prev2, s2) =>
        if s2.length < rest.length + 1 then
          r ++ gsubAux fuel p r prev2 s2
        else
          c :: gsubAux fuel p r (some c) rest
      | none => c :: gsubAux fuel p r (some c) rest

/-- Model of `re.sub(pattern, r, s, flags=re.IGNORECASE)`. -/
def gsub (p : Pat) (r : Str) (s : Str) : Str :=
  gsubAux (s.length + 1) p r none s

/-- Reference form of `re.sub(r'\s+', ' ', s)`: every maximal whitespace
run becomes a single space.  The boolean state records whether the scan
is inside a whitespace run already emitted as one space.  Proved equal to
`gsub [Atom.wsPlus] [chr 32]` below; used to reason about the cleanup step. -/
def collapseGo : Bool → Str → Str
  | _, [] => []
  | inRun, c :: rest =>
    if isPySpace c then
      if inRun then collapseGo true rest else ' ' :: collapseGo true rest
    else c :: collapseGo false rest

/-- Whitespace-run collapse starting outside a run. -/
def collapse (s : Str) : Str := collapseGo false s

/-- Python `str.strip` on the left. -/
def lstripWs (s : Str) : Str := s.dropWhile isPySpace

/-- Python `str.strip` on the right. -/
def rstripWs (s : Str) : Str := (s.reverse.dropWhile isPySpace).reverse

/-- Model of `re.sub(r'\s+', ' ', s).strip()` — the cleanup line of
`optimize`. -/
def cleanWs (s : Str) : Str := rstripWs (lstripWs (gsub [Atom.wsPlus] [' '] s))

/-- True when the first character, if any, is not whitespace. -/
def headNoWs : Str → Bool
  | [] => true
  | c :: _ => !isPySpace c

/-- True when no two consecutive characters are both whitespace. -/
def noDoubleWs : Str → Bool
  | [] => true
  | c :: rest => (!isPySpace c || headNoWs rest) && noDoubleWs rest

/-- True when the text neither starts nor ends with whitespace. -/
def noEdgeWs (s : Str) : Bool := headNoWs s && headNoWs s.reverse

/-- True when every whitespace character is a plain space. -/
def allSingleWs (s : Str) : Bool := s.all (fun c => !isPySpace c || c = ' ')

/-!  The base rule table of `AdvancedPromptOptimizer.__init__`, in the
source's (insertion-ordered dict) order.  Patterns are compiled from the
raw regexes of the source; impacts are the float literals read over `ℚ`. -/

/-- One rule group: ordered substitution pairs and an impact weight. -/
structure RuleGroup where
  patterns : List (Pat × Str)
  impact : ℚ
deriving DecidableEq

/-- Patterns of the `remove_politeness` group. -/
def politenessPatterns : List (Pat × Str) :=
  [([Atom.wordB] ++ lits (str "please") ++ [Atom.wsPlus], []),
   ([Atom.wordB] ++ lits (str "could you") ++ [Atom.wsPlus], []),
   ([Atom.wordB] ++ lits (str "would you") ++ [Atom.wsPlus], []),
   ([Atom.wordB] ++ lits (str "I would like you to") ++ [Atom.wsPlus], []),
   ([Atom.wordB] ++ lits (str "can you please") ++ [Atom.wsPlus], [])]

/-- Patterns of the `simplify_instructions` group. -/
def simplifyPatterns : List (Pat × Str) :=
  [([Atom.wordB] ++ lits (str "provide a detailed explanation of") ++ [Atom.wordB],
    str "explain"),
   ([Atom.wordB] ++ lits (str "give me a comprehensive overview of") ++ [Atom.wordB],
    str "describe"),
   ([Atom.wordB] ++ lits (str "I need you to analyze") ++ [Atom.wordB], str "analyze"),
   ([Atom.wordB] ++ lits (str "can you help me understand") ++ [Atom.wordB], str "explain")]

/-- Patterns of the `remove_verbose_modifiers` group. -/
def verbosePatterns : List (Pat × Str) :=
  [([Atom.wsPlus] ++ lits (str "in great detail") ++ [Atom.wordB], []),
   ([Atom.wsPlus] ++ lits (str "thoroughly") ++ [Atom.wordB], []),
   ([Atom.wsPlus] ++ lits (str "comprehensively") ++ [Atom.wordB], []),
   ([Atom.wsPlus] ++ lits (str "extensively") ++ [Atom.wordB], []),
   ([Atom.wsPlus] ++ lits (str "as much as possible") ++ [Atom.wordB], [])]

/-- Patterns of the `remove_redundant_instructions` group; the third
regex is `\bdon\'t forget to\s+`. -/
def redundantPatterns : List (Pat × Str) :=
  [([Atom.wordB] ++ lits (str "make sure to") ++ [Atom.wsPlus], []),
   ([Atom.wordB] ++ lits (str "be sure to") ++ [Atom.wsPlus], []),
   ([Atom.wordB] ++ lits (str "don") ++ [Atom.lit apos] ++ lits (str "t forget to") ++
      [Atom.wsPlus], [])]

/-- The ordered base rule table `self.base_rules`. -/
def base_rules : List (Str × RuleGroup) :=
  [(str "remove_politeness", ⟨politenessPatterns, 5/100⟩),
   (str "simplify_instructions", ⟨simplifyPatterns, 10/100⟩),
   (str "remove_verbose_modifiers", ⟨verbosePatterns, 15/100⟩),
   (str "remove_redundant_instructions", ⟨redundantPatterns, 5/100⟩)]

/-- The four base rule group names, in table order. -/
def baseNames : List Str := base_rules.map Prod.fst

/-- The learned-rules document: the three recognized optional top-level
keys of the JSON file (`None` = key absent).  `verbose_modifiers` is read
by no code path of `optimize` but participates in the dict's truthiness. -/
structure LearnedRules where
  high_cost_keywords : Option (List Str)
  verbose_modifiers : Option (List Str)
  recommended_alternatives : Option (List (Str × Str))
deriving DecidableEq

/-- The empty learned-rules mapping (`{}`). -/
def noRules : LearnedRules := ⟨none, none, none⟩

/-- Python truthiness of the `self.learned_rules` dict: non-empty iff it
has at least one key. -/
def LearnedRules.isTruthy (R : LearnedRules) : Bool :=
  R.high_cost_keywords.isSome || R.verbose_modifiers.isSome ||
  R.recommended_alternatives.isSome

/-- Python `x in y` for strings: substring test. -/
def isSubstr : Str → Str → Bool
  | needle, [] => needle.isEmpty
  | needle, c :: rest => needle.isPrefixOf (c :: rest) || isSubstr needle rest

/-- The change tag `f"replaced_{original.replace(' ', '_')}"`. -/
def tagOfPhrase (p : Str) : Str :=
  str "replaced_" ++ p.map (fun c => if c = ' ' then Char.ofNat 95 else c)

/-- One step of the `recommended_alternatives` loop: if `pr.1` occurs in
the lower-cased current text, substitute all case-insensitive occurrences
of the escaped literal and record a tag. -/
def altStep (acc : Str × List Str) (pr : Str × Str) : Str × List Str :=
  if isSubstr pr.1 (lowerStr acc.1) then
    (gsub (lits pr.1) pr.2 acc.1, acc.2 ++ [tagOfPhrase pr.1])
  else acc

/-- First phase of `apply_learned_rules`: the loop over
`recommended_alternatives` items. -/
def applyAlternatives (alts : List (Str × Str)) (text : Str) : Str × List Str :=
  alts.foldl altStep (text, [])

/-- The hard-coded safe-removal allowlist inside aggressive mode. -/
def allowlist : List Str :=
  [str "thoroughly", str "extensively", str "comprehensively"]

/-- One step of the aggressive keyword-removal loop: only allowlisted
keywords are removed
(`re.sub(rf'\b{keyword}\b', '', ..., flags=re.IGNORECASE)`). -/
def remStep (acc : Str × List Str) (k : Str) : Str × List Str :=
  if k ∈ allowlist then
    (gsub ([Atom.wordB] ++ lits k ++ [Atom.wordB]) [] acc.1,
     acc.2 ++ [str "removed_" ++ k])
  else acc

/-- Second phase of `apply_learned_rules` (aggressive only): the loop
over `high_cost_keywords`. -/
def applyRemovals (ks : List Str) (text : Str) : Str × List Str :=
  ks.foldl remStep (text, [])

/-- `apply_learned_rules(self, prompt, aggressive)`. -/
def apply_learned_rules (R : LearnedRules) (text : Str) (aggressive : Bool) :
    Str × List Str :=
  let s1 :=
    match R.recommended_alternatives with
    | some alts => applyAlternatives alts text
    | none => (text, [])
  let s2 :=
    if aggressive then
      match R.high_cost_keywords with
      | some ks => applyRemovals ks s1.1
      | none => (s1.1, [])
    else (s1.1, [])
  (s2.1, s1.2 ++ s2.2)

/-- One step of the base-rules loop of `optimize`: apply every pattern
of the group to the current text and record the group's name when the
text changed. -/
def baseStep (acc : Str × List Str) (rule : Str × RuleGroup) : Str × List Str :=
  let after := rule.2.patterns.foldl (fun t pr => gsub pr.1 pr.2 t) acc.1
  (after, if after = acc.1 then acc.2 else acc.2 ++ [rule.1])

/-- The base-rules loop of `optimize`: fold the groups in table order. -/
def applyBaseRules (text : Str) : Str × List Str :=
  base_rules.foldl baseStep (text, [])

/-- Python `change in self.base_rules` (dict-key test). -/
def isBaseName (c : Str) : Bool :=
  (base_rules.find? (fun r => r.1 == c)).isSome

/-- The impact weight `self.base_rules.get(change, {}).get('impact', 0)`. -/
def impactOf (c : Str) : ℚ :=
  match base_rules.find? (fun r => r.1 == c) with
  | some r => r.2.impact
  | none => 0

/-- The lookup sum of `estimate_improvement`:
`sum(base_rules.get(c, {}).get('impact', 0) for c in changes if c in base_rules)`. -/
def ruleImpact (changes : List Str) : ℚ :=
  ((changes.filter isBaseName).map impactOf).sum

/-- `estimate_improvement(self, original, optimized, changes)`.  `none`
models the `ZeroDivisionError` Python raises when `len(original) == 0`.
Returns `(latency, energy)`. -/
def estimate_improvement (original optimized : Str) (changes : List Str) :
    Option (ℚ × ℚ) :=
  if original.length = 0 then none
  else
    let length_reduction : ℚ :=
      ((original.length : ℚ) - (optimized.length : ℚ)) / (original.length : ℚ)
    let base_improvement : ℚ := length_reduction * (20/100)
    let total_latency : ℚ := min (base_improvement + ruleImpact changes) (50/100)
    some (total_latency, total_latency * (85/100))

/-- `assess_quality_impact(self, original, optimized)`.  `none` models
the `ZeroDivisionError` on a zero-length original. -/
def assess_quality_impact (original optimized : Str) : Option Str :=
  if original.length = 0 then none
  else
    let change_magnitude : ℚ :=
      |(original.length : ℚ) - (optimized.length : ℚ)| / (original.length : ℚ)
    some (if change_magnitude < 1/10 then str "maintained"
          else if change_magnitude < 25/100 then str "likely_maintained"
          else str "may_be_reduced")

/-- The details record returned by `optimize`. -/
structure Details where
  original_length : Nat
  optimized_length : Nat
  length_reduction : Int
  changes_applied : List Str
  estimated_latency_reduction : ℚ
  estimated_energy_reduction : ℚ
  quality_impact : Str
deriving DecidableEq

/-- The `if self.learned_rules:` guard of `optimize`: the learned phase
runs only when the dict is truthy. -/
def learnedStage (R : LearnedRules) (text : Str) (aggressive : Bool) :
    Str × List Str :=
  if R.isTruthy then apply_learned_rules R text aggressive else (text, [])

/-- `optimize(self, prompt, aggressive)` for an optimizer whose
`self.learned_rules` is `R`.  `none` models an uncaught exception. -/
def optimize (R : LearnedRules) (prompt : Str) (aggressive : Bool) :
    Option (Str × Details) :=
  let s1 := applyBaseRules prompt
  let s2 := learnedStage R s1.1 aggressive
  let changes := s1.2 ++ s2.2
  let optimized := cleanWs s2.1
  match estimate_improvement prompt optimized changes with
  | none => none
  | some imp =>
    match assess_quality_impact prompt optimized with
    | none => none
    | some q =>
      some (optimized,
        { original_length := prompt.length
          optimized_length := optimized.length
          length_reduction := (prompt.length : Int) - (optimized.length : Int)
          changes_applied := changes
          estimated_latency_reduction := imp.1
          estimated_energy_reduction := imp.2
          quality_impact := q })

/-- State of the learned-rules file as seen by `load_rules`: the path
does not exist, it exists but reading/JSON-parsing raises, or it parses
to a rules document.  The file system and `json.load` are external to the
repository and modelled by this abstract input. -/
inductive RulesFile
  | absent
  | malformed
  | valid (R : LearnedRules)
deriving DecidableEq

/-- `load_rules(self)`: a missing path returns `{}`; a raising
`open`/`json.load` is caught by the bare `except` and returns `{}`. -/
def load_rules : RulesFile → LearnedRules
  | RulesFile.absent => noRules
  | RulesFile.malformed => noRules
  | RulesFile.valid R => R

/-- `__init__(self, rules_path)`: `self.learned_rules` is `load_rules()`
when a path was given (`none` models `rules_path=None`). -/
def initLearnedRules : Option RulesFile → LearnedRules
  | none => noRules
  | some f => load_rules f

/-!  Length bounds: a whitespace munch never grows the remaining text,
every match consumes at least `minLen` characters, and a substitution
whose replacement is no longer than `minLen` of its pattern never grows
the subject. -/

theorem munch_snd_length : ∀ (rest : Str) (last : Char),
    (munch last rest).2.length ≤ rest.length := by
  intro rest
  induction rest with
  | nil => intro last; simp [munch]
  | cons d rest ih =>
    intro last
    cases hsp : isPySpace d with
    | true =>
      simp only [munch, hsp, if_pos]
      exact Nat.le_succ_of_le (ih d)
    | false => simp [munch, hsp]

theorem matchAtoms_length : ∀ (as : Pat) (prev p2 : Option Char) (s s2 : Str),
    matchAtoms as prev s = some (p2, s2) → s2.length + minLen as ≤ s.length := by
  intro as
  induction as with
  | nil =>
    intro prev p2 s s2 h
    simp only [matchAtoms, Option.some.injEq, Prod.mk.injEq] at h
    simp [minLen, h.2]
  | cons a as ih =>
    intro prev p2 s s2 h
    cases a with
    | lit c =>
      cases s with
      | nil => simp [matchAtoms] at h
      | cons d rest =>
        simp only [matchAtoms] at h
        by_cases hd : asciiLower d = asciiLower c
        · rw [if_pos hd] at h
          have := ih (some d) p2 rest s2 h
          simp only [minLen, List.length_cons]
          omega
        · rw [if_neg hd] at h; exact absurd h (by simp)
    | wordB =>
      simp only [matchAtoms] at h
      by_cases hb : isWordOpt prev ≠ isWordHead s
      · rw [if_pos hb] at h
        have := ih prev p2 s s2 h
        simpa [minLen] using this
      · rw [if_neg hb] at h; exact absurd h (by simp)
    | wsPlus =>
      cases s with
      | nil => simp [matchAtoms] at h
      | cons d rest =>
        simp only [matchAtoms] at h
        cases hsp : isPySpace d with
        | true =>
          rw [hsp, if_pos rfl] at h
          have h1 := ih (some (munch d rest).1) p2 (munch d rest).2 s2 h
          have h2 := munch_snd_length rest d
          simp only [minLen, List.length_cons]
          omega
        | false =>
          rw [hsp] at h; exact absurd h (by simp)

theorem gsubAux_length : ∀ (fuel : Nat) (p : Pat) (r : Str) (prev : Option Char)
    (s : Str), r.length ≤ minLen p → (gsubAux fuel p r prev s).length ≤ s.length := by
  intro fuel
  induction fuel with
  | zero => intro p r prev s _; simp [gsubAux]
  | succ fuel ih =>
    intro p r prev s hr
    cases s with
    | nil => simp [gsubAux]
    | cons c rest =>
      rw [gsubAux]
      cases hm : matchAtoms p prev (c :: rest) with
      | none =>
        simp only [List.length_cons]
        exact Nat.succ_le_succ (ih p r (some c) rest hr)
      | some v =>
        obtain ⟨p2, s2⟩ := v
        simp only []
        by_cases hlt : s2.length < rest.length + 1
        · rw [if_pos hlt]
          have h1 := matchAtoms_length p prev p2 (c :: rest) s2 hm
          have h2 := ih p r p2 s2 hr
          simp only [List.length_append, List.length_cons] at *
          omega
        · rw [if_neg hlt]
          simp only [List.length_cons]
          exact Nat.succ_le_succ (ih p r (some c) rest hr)

theorem gsub_length (p : Pat) (r : Str) (s : Str) (hr : r.length ≤ minLen p) :
    (gsub p r s).length ≤ s.length :=
  gsubAux_length (s.length + 1) p r none s hr

/-!  Characterization of the cleanup substitution: `re.sub(r'\s+', ' ', s)`
is exactly `collapse`. -/

theorem munch_snd_eq : ∀ (rest : Str) (last : Char),
    (munch last rest).2 = rest.dropWhile isPySpace := by
  intro rest
  induction rest with
  | nil => intro last; simp [munch]
  | cons d rest ih =>
    intro last
    cases hsp : isPySpace d with
    | true => simp [munch, hsp, List.dropWhile, ih d]
    | false => simp [munch, hsp, List.dropWhile]

theorem collapseGo_true_eq : ∀ (s : Str),
    collapseGo true s = collapseGo false (s.dropWhile isPySpace) := by
  intro s
  induction s with
  | nil => simp [collapseGo]
  | cons c rest ih =>
    cases hsp : isPySpace c with
    | true => simp [collapseGo, hsp, List.dropWhile, ih]
    | false => simp [collapseGo, hsp, List.dropWhile]

theorem gsubAux_ws : ∀ (fuel : Nat) (s : Str) (prev : Option Char),
    s.length < fuel →
    gsubAux fuel [Atom.wsPlus] [' '] prev s = collapseGo false s := by
  intro fuel
  induction fuel with
  | zero => intro s prev h; omega
  | succ fuel ih =>
    intro s prev h
    cases s with
    | nil => simp [gsubAux, collapseGo]
    | cons c rest =>
      rw [gsubAux]
      cases hsp : isPySpace c with
      | true =>
        have hm : matchAtoms [Atom.wsPlus] prev (c :: rest) =
            some (some (munch c rest).1, (munch c rest).2) := by
          simp [matchAtoms, hsp]
        rw [hm]
        simp only []
        have hlen := munch_snd_length rest c
        rw [if_pos (by omega)]
        have hrec : (munch c rest).2.length < fuel := by
          simp only [List.length_cons] at h; omega
        rw [ih (munch c rest).2 (some (munch c rest).1) hrec]
        rw [munch_snd_eq rest c]
        simp [collapseGo, hsp, collapseGo_true_eq]
      | false =>
        have hm : matchAtoms [Atom.wsPlus] prev (c :: rest) = none := by
          simp [matchAtoms, hsp]
        rw [hm]
        simp only [List.length_cons] at h
        rw [ih rest (some c) (by omega)]
        simp [collapseGo, hsp]

theorem gsub_ws (s : Str) : gsub [Atom.wsPlus] [' '] s = collapse s :=
  gsubAux_ws (s.length + 1) s none (Nat.lt_succ_self _)

/-!  Properties of the whitespace predicates and the cleanup step. -/

theorem headNoWs_collapseGo_true : ∀ (s : Str), headNoWs (collapseGo true s) = true := by
  intro s
  induction s with
  | nil => simp [collapseGo, headNoWs]
  | cons c rest ih =>
    cases hsp : isPySpace c with
    | true => simpa [collapseGo, hsp] using ih
    | false => simp [collapseGo, hsp, headNoWs]

theorem noDoubleWs_collapseGo : ∀ (s : Str) (b : Bool),
    noDoubleWs (collapseGo b s) = true := by
  intro s
  induction s with
  | nil => intro b; simp [collapseGo, noDoubleWs]
  | cons c rest ih =>
    intro b
    cases hsp : isPySpace c with
    | true =>
      cases b with
      | true => simpa [collapseGo, hsp] using ih true
      | false =>
        simp only [collapseGo, hsp, if_pos, Bool.false_eq_true, if_false]
        simp [noDoubleWs, headNoWs_collapseGo_true rest, ih true]
    | false => simp [collapseGo, hsp, noDoubleWs, ih false]

theorem allSingleWs_collapseGo : ∀ (s : Str) (b : Bool),
    allSingleWs (collapseGo b s) = true := by
  intro s
  induction s with
  | nil => intro b; simp [collapseGo, allSingleWs]
  | cons c rest ih =>
    intro b
    cases hsp : isPySpace c with
    | true =>
      cases b with
      | true => simpa [collapseGo, hsp] using ih true
      | false =>
        simp only [collapseGo, hsp, Bool.false_eq_true, if_false, if_pos]
        simpa [allSingleWs, isPySpace] using ih true
    | false =>
      simp only [collapseGo, hsp, Bool.false_eq_true, if_false]
      simpa [allSingleWs, hsp] using ih false

theorem noDoubleWs_tail (c : Char) (rest : Str) (h : noDoubleWs (c :: rest) = true) :
    noDoubleWs rest = true := by
  simp only [noDoubleWs, Bool.and_eq_true] at h
  exact h.2

theorem noDoubleWs_dropWhile (p : Char → Bool) :
    ∀ (s : Str), noDoubleWs s = true → noDoubleWs (s.dropWhile p) = true := by
  intro s
  induction s with
  | nil => intro h; simpa using h
  | cons c rest ih =>
    intro h
    cases hp : p c with
    | true => simpa [List.dropWhile, hp] using ih (noDoubleWs_tail c rest h)
    | false => simpa [List.dropWhile, hp] using h

theorem noDoubleWs_append_left : ∀ (l₁ l₂ : Str),
    noDoubleWs (l₁ ++ l₂) = true → noDoubleWs l₁ = true := by
  intro l₁
  induction l₁ with
  | nil => intro l₂ _; simp [noDoubleWs]
  | cons c rest ih =>
    intro l₂ h
    simp only [List.cons_append, noDoubleWs, Bool.and_eq_true] at h ⊢
    refine ⟨?_, ih l₂ h.2⟩
    cases rest with
    | nil => simp [headNoWs]
    | cons d rest2 => simpa [headNoWs] using h.1

theorem headNoWs_dropWhile (s : Str) : headNoWs (s.dropWhile isPySpace) = true := by
  induction s with
  | nil => simp [headNoWs]
  | cons c rest ih =>
    cases hsp : isPySpace c with
    | true => simpa [List.dropWhile, hsp] using ih
    | false => simp [List.dropWhile, hsp, headNoWs]

theorem headNoWs_append_left (l₁ l₂ : Str) (h : headNoWs (l₁ ++ l₂) = true) :
    headNoWs l₁ = true := by
  cases l₁ with
  | nil => simp [headNoWs]
  | cons c rest => simpa [headNoWs] using h

theorem rstripWs_append (s : Str) :
    rstripWs s ++ (s.reverse.takeWhile isPySpace).reverse = s := by
  rw [rstripWs, ← List.reverse_append, List.takeWhile_append_dropWhile,
    List.reverse_reverse]

theorem noDoubleWs_rstripWs (s : Str) (h : noDoubleWs s = true) :
    noDoubleWs (rstripWs s) = true := by
  have hd := rstripWs_append s
  exact noDoubleWs_append_left _ _ (by rw [hd]; exact h)

theorem headNoWs_rstripWs_reverse (s : Str) :
    headNoWs (rstripWs s).reverse = true := by
  rw [rstripWs, List.reverse_reverse]
  exact headNoWs_dropWhile s.reverse

theorem mem_of_mem_rstripWs (s : Str) (c : Char) (h : c ∈ rstripWs s) : c ∈ s := by
  have hd := rstripWs_append s
  rw [← hd]
  exact List.mem_append_left _ h

theorem allSingleWs_of_mem (s t : Str) (hsub : ∀ c, c ∈ t → c ∈ s)
    (h : allSingleWs s = true) : allSingleWs t = true := by
  simp only [allSingleWs, List.all_eq_true] at h ⊢
  intro c hc
  exact h c (hsub c hc)

theorem noDoubleWs_cleanWs (s : Str) : noDoubleWs (cleanWs s) = true := by
  rw [cleanWs, gsub_ws]
  exact noDoubleWs_rstripWs _ (noDoubleWs_dropWhile _ _ (noDoubleWs_collapseGo s false))

theorem noEdgeWs_cleanWs (s : Str) : noEdgeWs (cleanWs s) = true := by
  rw [cleanWs, gsub_ws, noEdgeWs, Bool.and_eq_true]
  constructor
  · have hd := rstripWs_append (lstripWs (collapse s))
    exact headNoWs_append_left _ _
      (by rw [hd]; exact headNoWs_dropWhile (collapse s))
  · exact headNoWs_rstripWs_reverse _

theorem allSingleWs_cleanWs (s : Str) : allSingleWs (cleanWs s) = true := by
  rw [cleanWs, gsub_ws]
  refine allSingleWs_of_mem (collapse s) _ ?_ (allSingleWs_collapseGo s false)
  intro c hc
  have h1 := mem_of_mem_rstripWs _ _ hc
  exact (List.dropWhile_sublist isPySpace).subset h1

theorem lstripWs_fixed (t : Str) (h : headNoWs t = true) : lstripWs t = t := by
  cases t with
  | nil => simp [lstripWs]
  | cons c rest =>
    have hc : isPySpace c = false := by simpa [headNoWs] using h
    simp [lstripWs, List.dropWhile, hc]

theorem rstripWs_fixed (t : Str) (h : headNoWs t.reverse = true) : rstripWs t = t := by
  rw [rstripWs]
  have := lstripWs_fixed t.reverse h
  rw [lstripWs] at this
  rw [this, List.reverse_reverse]

theorem collapseGo_fixed : ∀ (t : Str), noDoubleWs t = true → allSingleWs t = true →
    collapseGo false t = t := by
  intro t
  induction t with
  | nil => intro _ _; simp [collapseGo]
  | cons c rest ih =>
    intro h1 h2
    have h1' : noDoubleWs rest = true := noDoubleWs_tail c rest h1
    have h2' : allSingleWs rest = true := by
      simp only [allSingleWs, List.all_cons, Bool.and_eq_true] at h2
      exact h2.2
    cases hsp : isPySpace c with
    | true =>
      have hc : c = ' ' := by
        simp only [allSingleWs, List.all_cons, Bool.and_eq_true] at h2
        have := h2.1
        simp [hsp] at this
        exact this
      have hhd : headNoWs rest = true := by
        simp only [noDoubleWs, Bool.and_eq_true] at h1
        have := h1.1
        simpa [hsp] using this
      rw [collapseGo]
      rw [if_pos hsp, if_neg (by simp)]
      rw [collapseGo_true_eq]
      rw [show rest.dropWhile isPySpace = rest from lstripWs_fixed rest hhd]
      rw [ih h1' h2', hc]
    | false =>
      rw [collapseGo, if_neg (by simp [hsp])]
      rw [ih h1' h2']

theorem cleanWs_idem (s : Str) : cleanWs (cleanWs s) = cleanWs s := by
  have h1 := noDoubleWs_cleanWs s
  have h2 := allSingleWs_cleanWs s
  have h3 := noEdgeWs_cleanWs s
  rw [noEdgeWs, Bool.and_eq_true] at h3
  rw [cleanWs, gsub_ws, collapse, collapseGo_fixed _ h1 h2,
    lstripWs_fixed _ h3.1, rstripWs_fixed _ h3.2]

/-!  Structure of the applied-changes list: a fold whose step appends
fresh entries to the accumulator splits off its accumulator; the base
loop produces an in-order selection of the group names; the learned
phases produce only `replaced_*` / `removed_*` tags. -/

theorem foldl_step_acc {α : Type} (step : Str × List Str → α → Str × List Str)
    (hstep : ∀ t acc x, step (t, acc) x = ((step (t, []) x).1, acc ++ (step (t, []) x).2)) :
    ∀ (l : List α) (t : Str) (acc : List Str),
      (l.foldl step (t, acc)).1 = (l.foldl step (t, [])).1 ∧
      (l.foldl step (t, acc)).2 = acc ++ (l.foldl step (t, [])).2 := by
  intro l
  induction l with
  | nil => intro t acc; simp
  | cons x xs ih =>
    intro t acc
    simp only [List.foldl_cons]
    rw [hstep t acc x, hstep t [] x]
    obtain ⟨ha1, ha2⟩ := ih (step (t, []) x).1 (acc ++ [] ++ (step (t, []) x).2)
    obtain ⟨hb1, hb2⟩ := ih (step (t, []) x).1 ([] ++ (step (t, []) x).2)
    constructor
    · simpa using ha1.trans hb1.symm
    · simp only [List.nil_append, List.append_nil] at ha2 hb2 ⊢
      rw [ha2, hb2, List.append_assoc]

theorem baseStep_acc : ∀ (t : Str) (acc : List Str) (x : Str × RuleGroup),
    baseStep (t, acc) x = ((baseStep (t, []) x).1, acc ++ (baseStep (t, []) x).2) := by
  intro t acc x
  simp only [baseStep]
  by_cases hA : (x.2.patterns.foldl (fun u pr => gsub pr.1 pr.2 u) t) = t
  · simp [hA]
  · simp [hA]

theorem altStep_acc : ∀ (t : Str) (acc : List Str) (x : Str × Str),
    altStep (t, acc) x = ((altStep (t, []) x).1, acc ++ (altStep (t, []) x).2) := by
  intro t acc x
  simp only [altStep]
  by_cases hs : isSubstr x.1 (lowerStr t) = true
  · simp [hs]
  · simp [hs]

theorem remStep_acc : ∀ (t : Str) (acc : List Str) (x : Str),
    remStep (t, acc) x = ((remStep (t, []) x).1, acc ++ (remStep (t, []) x).2) := by
  intro t acc x
  simp only [remStep]
  by_cases hs : x ∈ allowlist
  · simp [hs]
  · simp [hs]

theorem baseFold_sublist : ∀ (rules : List (Str × RuleGroup)) (t : Str),
    List.Sublist (rules.foldl baseStep (t, [])).2 (rules.map Prod.fst) := by
  intro rules
  induction rules with
  | nil => intro t; simp
  | cons r rs ih =>
    intro t
    simp only [List.foldl_cons, List.map_cons]
    rw [show rs.foldl baseStep (baseStep (t, []) r) =
        rs.foldl baseStep ((baseStep (t, []) r).1, (baseStep (t, []) r).2) from rfl]
    have hsplit := foldl_step_acc baseStep baseStep_acc rs (baseStep (t, []) r).1
      (baseStep (t, []) r).2
    rw [hsplit.2]
    simp only [baseStep]
    by_cases hA : (r.2.patterns.foldl (fun u pr => gsub pr.1 pr.2 u) t) = t
    · simp only [hA, if_pos]
      simpa using (ih _).cons r.1
    · simp only [hA, if_neg, List.nil_append]
      simpa using (ih _).cons₂ r.1

theorem applyBaseRules_sublist (t : Str) :
    List.Sublist (applyBaseRules t).2 baseNames :=
  baseFold_sublist base_rules t

theorem altFold_shape : ∀ (alts : List (Str × Str)) (t : Str) (x : Str),
    x ∈ (alts.foldl altStep (t, [])).2 → ∃ ph, x = tagOfPhrase ph := by
  intro alts
  induction alts with
  | nil => intro t x h; simp at h
  | cons pr rs ih =>
    intro t x h
    simp only [List.foldl_cons] at h
    rw [show rs.foldl altStep (altStep (t, []) pr) =
        rs.foldl altStep ((altStep (t, []) pr).1, (altStep (t, []) pr).2) from rfl] at h
    rw [(foldl_step_acc altStep altStep_acc rs _ _).2] at h
    rcases List.mem_append.mp h with h1 | h2
    · simp only [altStep] at h1
      by_cases hs : isSubstr pr.1 (lowerStr t) = true
      · simp only [hs, if_pos] at h1
        simp at h1
        exact ⟨pr.1, h1⟩
      · simp [hs] at h1
    · exact ih _ x h2

theorem remFold_shape : ∀ (ks : List Str) (t : Str) (x : Str),
    x ∈ (ks.foldl remStep (t, [])).2 →
    ∃ k, k ∈ allowlist ∧ x = str "removed_" ++ k := by
  intro ks
  induction ks with
  | nil => intro t x h; simp at h
  | cons k rs ih =>
    intro t x h
    simp only [List.foldl_cons] at h
    rw [show rs.foldl remStep (remStep (t, []) k) =
        rs.foldl remStep ((remStep (t, []) k).1, (remStep (t, []) k).2) from rfl] at h
    rw [(foldl_step_acc remStep remStep_acc rs _ _).2] at h
    rcases List.mem_append.mp h with h1 | h2
    · simp only [remStep] at h1
      by_cases hs : k ∈ allowlist
      · simp only [hs, if_pos] at h1
        simp at h1
        exact ⟨k, hs, h1⟩
      · simp [hs] at h1
    · exact ih _ x h2

theorem learnedStage_shape (R : LearnedRules) (t : Str) (a : Bool) (x : Str)
    (h : x ∈ (learnedStage R t a).2) :
    (∃ ph, x = tagOfPhrase ph) ∨ ∃ k, k ∈ allowlist ∧ x = str "removed_" ++ k := by
  rw [learnedStage] at h
  by_cases htr : R.isTruthy = true
  · rw [if_pos htr] at h
    rw [apply_learned_rules] at h
    simp only [] at h
    rcases List.mem_append.mp h with h1 | h2
    · cases halt : R.recommended_alternatives with
      | none => rw [halt] at h1; simp at h1
      | some alts =>
        rw [halt] at h1
        exact Or.inl (altFold_shape alts t x h1)
    · cases ha : a with
      | false => rw [ha] at h2; simp at h2
      | true =>
        rw [ha] at h2
        simp only [if_pos] at h2
        cases hks : R.high_cost_keywords with
        | none => rw [hks] at h2; simp at h2
        | some ks =>
          rw [hks] at h2
          exact Or.inr (remFold_shape ks _ x h2)
  · rw [if_neg htr] at h
    simp at h

/-!  Learned-rule tags never collide with base group names, and the
impact lookup of `estimate_improvement`. -/

theorem tag_not_baseName (x : Str)
    (h : (∃ ph, x = tagOfPhrase ph) ∨ ∃ k, k ∈ allowlist ∧ x = str "removed_" ++ k) :
    x ∉ baseNames := by
  intro hmem
  have hmem4 : x = str "remove_politeness" ∨ x = str "simplify_instructions" ∨
      x = str "remove_verbose_modifiers" ∨ x = str "remove_redundant_instructions" := by
    simpa [baseNames, base_rules] using hmem
  rcases h with ⟨ph, rfl⟩ | ⟨k, hk, rfl⟩
  · have h9 : List.take 9 (tagOfPhrase ph) = str "replaced_" := by
      rw [tagOfPhrase]
      rw [show (9 : Nat) = (str "replaced_").length from rfl, List.take_left]
    rcases hmem4 with he | he | he | he <;>
      (rw [he] at h9; exact absurd h9 (by decide))
  · have hk3 : k = str "thoroughly" ∨ k = str "extensively" ∨
        k = str "comprehensively" := by simpa [allowlist] using hk
    rcases hk3 with rfl | rfl | rfl <;>
      (rcases hmem4 with he | he | he | he <;> exact absurd he (by decide))

theorem isBaseName_iff (c : Str) : isBaseName c = true ↔ c ∈ baseNames := by
  rw [isBaseName, List.find?_isSome, baseNames]
  constructor
  · rintro ⟨r, hr, he⟩
    exact List.mem_map.mpr ⟨r, hr, by simpa using he⟩
  · intro h
    rcases List.mem_map.mp h with ⟨r, hr, he⟩
    exact ⟨r, hr, by simpa using he⟩

theorem ruleImpact_append (l₁ l₂ : List Str) :
    ruleImpact (l₁ ++ l₂) = ruleImpact l₁ + ruleImpact l₂ := by
  simp [ruleImpact, List.filter_append, List.sum_append]

theorem impactOf_nonneg (c : Str) : 0 ≤ impactOf c := by
  rw [impactOf]
  cases hf : base_rules.find? (fun r => r.1 == c) with
  | none => simp
  | some r =>
    have hr := List.mem_of_find?_eq_some hf
    have hall : ∀ g ∈ base_rules, 0 ≤ g.2.impact := by
      intro g hg
      simp only [base_rules, List.mem_cons, List.not_mem_nil, or_false] at hg
      rcases hg with rfl | rfl | rfl | rfl <;> norm_num
    exact hall r hr

theorem ruleImpact_nonneg (l : List Str) : 0 ≤ ruleImpact l := by
  rw [ruleImpact]
  refine List.sum_nonneg ?_
  intro x hx
  rcases List.mem_map.mp hx with ⟨c, _, rfl⟩
  exact impactOf_nonneg c

theorem ruleImpact_eq_zero (l : List Str) (h : ∀ x ∈ l, x ∉ baseNames) :
    ruleImpact l = 0 := by
  rw [ruleImpact]
  have hf : l.filter isBaseName = [] := by
    rw [List.filter_eq_nil_iff]
    intro a ha
    intro hb
    exact h a ha ((isBaseName_iff a).mp hb)
  rw [hf]
  simp

theorem ruleImpact_of_base (l : List Str) (h : ∀ x ∈ l, x ∈ baseNames) :
    ruleImpact l = (l.map impactOf).sum := by
  rw [ruleImpact]
  have hf : l.filter isBaseName = l := by
    rw [List.filter_eq_self]
    intro a ha
    exact (isBaseName_iff a).mpr (h a ha)
  rw [hf]

/-!  Closed forms of `optimize`: it raises exactly on the empty prompt,
and on a non-empty prompt it returns the record below. -/

theorem optimize_empty (R : LearnedRules) (a : Bool) : optimize R [] a = none := by
  simp [optimize, estimate_improvement]

theorem optimize_eq_some (R : LearnedRules) (p : Str) (a : Bool)
    (hp : p.length ≠ 0) :
    optimize R p a =
      some (cleanWs (learnedStage R (applyBaseRules p).1 a).1,
        { original_length := p.length
          optimized_length := (cleanWs (learnedStage R (applyBaseRules p).1 a).1).length
          length_reduction := (p.length : Int) -
            ((cleanWs (learnedStage R (applyBaseRules p).1 a).1).length : Int)
          changes_applied := (applyBaseRules p).2 ++
            (learnedStage R (applyBaseRules p).1 a).2
          estimated_latency_reduction :=
            min ((((p.length : ℚ) -
                ((cleanWs (learnedStage R (applyBaseRules p).1 a).1).length : ℚ)) /
                  (p.length : ℚ)) * (20/100) +
              ruleImpact ((applyBaseRules p).2 ++
                (learnedStage R (applyBaseRules p).1 a).2)) (50/100)
          estimated_energy_reduction :=
            (min ((((p.length : ℚ) -
                ((cleanWs (learnedStage R (applyBaseRules p).1 a).1).length : ℚ)) /
                  (p.length : ℚ)) * (20/100) +
              ruleImpact ((applyBaseRules p).2 ++
                (learnedStage R (applyBaseRules p).1 a).2)) (50/100)) * (85/100)
          quality_impact :=
            if |(p.length : ℚ) -
                ((cleanWs (learnedStage R (applyBaseRules p).1 a).1).length : ℚ)| /
                  (p.length : ℚ) < 1/10 then str "maintained"
            else if |(p.length : ℚ) -
                ((cleanWs (learnedStage R (applyBaseRules p).1 a).1).length : ℚ)| /
                  (p.length : ℚ) < 25/100 then str "likely_maintained"
            else str "may_be_reduced" }) := by
  rw [optimize]
  simp only [estimate_improvement, assess_quality_impact, hp, if_false, ite_false]

theorem optimize_some_inv (R : LearnedRules) (p : Str) (a : Bool) (t : Str)
    (d : Details) (h : optimize R p a = some (t, d)) :
    p.length ≠ 0 ∧
    t = cleanWs (learnedStage R (applyBaseRules p).1 a).1 ∧
    d = { original_length := p.length
          optimized_length := t.length
          length_reduction := (p.length : Int) - (t.length : Int)
          changes_applied := (applyBaseRules p).2 ++
            (learnedStage R (applyBaseRules p).1 a).2
          estimated_latency_reduction :=
            min ((((p.length : ℚ) - (t.length : ℚ)) / (p.length : ℚ)) * (20/100) +
              ruleImpact ((applyBaseRules p).2 ++
                (learnedStage R (applyBaseRules p).1 a).2)) (50/100)
          estimated_energy_reduction :=
            (min ((((p.length : ℚ) - (t.length : ℚ)) / (p.length : ℚ)) * (20/100) +
              ruleImpact ((applyBaseRules p).2 ++
                (learnedStage R (applyBaseRules p).1 a).2)) (50/100)) * (85/100)
          quality_impact :=
            if |(p.length : ℚ) - (t.length : ℚ)| / (p.length : ℚ) < 1/10 then
              str "maintained"
            else if |(p.length : ℚ) - (t.length : ℚ)| / (p.length : ℚ) < 25/100 then
              str "likely_maintained"
            else str "may_be_reduced" } := by
  have hp : p.length ≠ 0 := by
    intro h0
    have hnil : p = [] := List.length_eq_zero.mp h0
    rw [hnil, optimize_empty] at h
    exact absurd h (by simp)
  rw [optimize_eq_some R p a hp] at h
  simp only [Option.some.injEq, Prod.mk.injEq] at h
  obtain ⟨h1, h2⟩ := h
  subst h1
  exact ⟨hp, rfl, h2.symm⟩

/-- Evaluation scheme for `optimize` at concrete inputs: the text-level
hypotheses are decidable computations and the rational hypotheses are
closed by `norm_num`. -/
theorem optimize_eval (R : LearnedRules) (p : Str) (a : Bool) (T : Str)
    (C : List Str) (n m : Nat) (L E : ℚ) (Q : Str)
    (hp : p.length = n) (hn : n ≠ 0)
    (hT : cleanWs (learnedStage R (applyBaseRules p).1 a).1 = T)
    (hC : (applyBaseRules p).2 ++ (learnedStage R (applyBaseRules p).1 a).2 = C)
    (hm : T.length = m)
    (hL : min ((((n : ℚ) - (m : ℚ)) / (n : ℚ)) * (20/100) + ruleImpact C) (50/100) = L)
    (hE : L * (85/100) = E)
    (hQ : (if |(n : ℚ) - (m : ℚ)| / (n : ℚ) < 1/10 then str "maintained"
           else if |(n : ℚ) - (m : ℚ)| / (n : ℚ) < 25/100 then str "likely_maintained"
           else str "may_be_reduced") = Q) :
    optimize R p a = some (T, ⟨n, m, (n : Int) - (m : Int), C, L, E, Q⟩) := by
  subst hp hT hC hm hL hE hQ
  exact optimize_eq_some R p a hn

/-!  Length facts along the pipeline: with no learned rules, the text
never grows (every base replacement is no longer than any match of its
pattern, and the cleanup only shrinks). -/

theorem base_patterns_ok :
    ∀ g ∈ base_rules, ∀ pr ∈ g.2.patterns, pr.2.length ≤ minLen pr.1 := by
  decide

theorem foldPatterns_length : ∀ (pats : List (Pat × Str)) (t : Str),
    (∀ pr ∈ pats, pr.2.length ≤ minLen pr.1) →
    (pats.foldl (fun u pr => gsub pr.1 pr.2 u) t).length ≤ t.length := by
  intro pats
  induction pats with
  | nil => intro t _; simp
  | cons pr rest ih =>
    intro t hall
    simp only [List.foldl_cons]
    have h1 := gsub_length pr.1 pr.2 t (hall pr (List.mem_cons_self pr rest))
    have h2 := ih (gsub pr.1 pr.2 t) (fun x hx => hall x (List.mem_cons_of_mem pr hx))
    omega

theorem baseFold_text_length : ∀ (rules : List (Str × RuleGroup)) (t : Str)
    (acc : List Str), (∀ g ∈ rules, ∀ pr ∈ g.2.patterns, pr.2.length ≤ minLen pr.1) →
    ((rules.foldl baseStep (t, acc)).1).length ≤ t.length := by
  intro rules
  induction rules with
  | nil => intro t acc _; simp
  | cons r rs ih =>
    intro t acc hall
    simp only [List.foldl_cons]
    have h1 := foldPatterns_length r.2.patterns t
      (hall r (List.mem_cons_self r rs))
    have h2 := ih (baseStep (t, acc) r).1 (baseStep (t, acc) r).2
      (fun g hg => hall g (List.mem_cons_of_mem r hg))
    have h3 : (baseStep (t, acc) r).1 =
        r.2.patterns.foldl (fun u pr => gsub pr.1 pr.2 u) t := rfl
    rw [show rs.foldl baseStep (baseStep (t, acc) r) =
        rs.foldl baseStep ((baseStep (t, acc) r).1, (baseStep (t, acc) r).2) from rfl]
    rw [h3]
    rw [h3] at h2
    omega

theorem applyBaseRules_length (p : Str) :
    ((applyBaseRules p).1).length ≤ p.length :=
  baseFold_text_length base_rules p [] base_patterns_ok

theorem cleanWs_length (s : Str) : (cleanWs s).length ≤ s.length := by
  rw [cleanWs]
  have h1 : (gsub [Atom.wsPlus] [' '] s).length ≤ s.length :=
    gsub_length _ _ s (by simp [minLen])
  have h2 : (lstripWs (gsub [Atom.wsPlus] [' '] s)).length ≤
      (gsub [Atom.wsPlus] [' '] s).length :=
    (List.dropWhile_sublist isPySpace).length_le
  have h3 : (rstripWs (lstripWs (gsub [Atom.wsPlus] [' '] s))).length ≤
      (lstripWs (gsub [Atom.wsPlus] [' '] s)).length := by
    rw [rstripWs, List.length_reverse]
    calc ((lstripWs (gsub [Atom.wsPlus] [' '] s)).reverse.dropWhile isPySpace).length
        ≤ (lstripWs (gsub [Atom.wsPlus] [' '] s)).reverse.length :=
          (List.dropWhile_sublist isPySpace).length_le
      _ = (lstripWs (gsub [Atom.wsPlus] [' '] s)).length := List.length_reverse _
  omega

theorem learnedStage_noRules (t : Str) (a : Bool) :
    learnedStage noRules t a = (t, []) := by
  simp [learnedStage, LearnedRules.isTruthy, noRules]

/-!  Closed evaluations of `optimize` at the concrete inputs used to
instantiate the universally quantified results below. -/

theorem optimize_hi :
    optimize noRules (str "hi") false =
      some (str "hi", ⟨2, 2, (2 : Int) - (2 : Int), [], 0, 0, str "maintained"⟩) := by
  refine optimize_eval noRules (str "hi") false (str "hi") [] 2 2 0 0
    (str "maintained") (by decide) (by decide) (by decide) (by decide) (by decide)
    ?_ ?_ ?_
  · rw [show ruleImpact ([] : List Str) = 0 from rfl]
    rw [min_eq_left (by norm_num)]
    norm_num
  · norm_num
  · rw [if_pos (by norm_num)]

theorem optimize_please_help :
    optimize noRules (str "please help") false =
      some (str "help", ⟨11, 4, (11 : Int) - (4 : Int), [str "remove_politeness"],
        39/220, 663/4400, str "may_be_reduced"⟩) := by
  refine optimize_eval noRules (str "please help") false (str "help")
    [str "remove_politeness"] 11 4 (39/220) (663/4400) (str "may_be_reduced")
    (by decide) (by decide) (by decide) (by decide) (by decide) ?_ ?_ ?_
  · rw [show ruleImpact [str "remove_politeness"] = 5/100 + 0 from rfl]
    rw [min_eq_left (by norm_num)]
    norm_num
  · norm_num
  · rw [if_neg (by norm_num), if_neg (by norm_num)]

/-!  The claims. -/

/-- C1: the code contradicts the claim's required behaviour — for the
empty prompt, `optimize` does not return a result at all: with
`len(original) == 0`, `estimate_improvement` evaluates
`(len(original) - len(optimized)) / len(original)` and the
`ZeroDivisionError` propagates (modelled by `none`), for every loaded
rules configuration and both aggressive flags, instead of producing the
claimed `optimized_text == ""`, zero reductions and "maintained". -/
theorem c1_empty_prompt_raises (R : LearnedRules) (a : Bool) :
    optimize R [] a = none :=
  optimize_empty R a

/-- C2 counterexample: with loaded learned rules that replace the phrase
"a" by the longer "bbbbbb", `optimize` on prompt "a" returns
`estimated_latency_reduction = -1`, violating the claimed lower bound
`0 ≤ estimated_latency_reduction`. -/
theorem c2_counterexample :
    optimize ⟨none, none, some [(str "a", str "bbbbbb")]⟩ (str "a") false =
      some (str "bbbbbb", ⟨1, 6, (1 : Int) - (6 : Int), [str "replaced_a"],
        -1, -1 * (85/100), str "may_be_reduced"⟩) ∧
    ¬ (0 : ℚ) ≤ -1 := by
  constructor
  · refine optimize_eval _ _ _ _ _ 1 6 (-1) (-1 * (85/100)) (str "may_be_reduced")
      (by decide) (by decide) (by decide) (by decide) (by decide) ?_ rfl ?_
    · rw [show ruleImpact [str "replaced_a"] = 0 from rfl]
      rw [min_eq_left (by norm_num)]
      norm_num
    · rw [if_neg (by norm_num), if_neg (by norm_num)]
  · norm_num

/-- C2 amended: for every prompt, aggressive flag and rules
configuration, whenever `optimize` returns,
`estimated_latency_reduction ≤ 0.50` and `estimated_energy_reduction`
equals `estimated_latency_reduction × 0.85` exactly; the lower bound
`0 ≤ estimated_latency_reduction` additionally holds whenever the
optimized text is not longer than the prompt — in particular always
when no learned rules are loaded. -/
theorem c2_amended (R : LearnedRules) (p : Str) (a : Bool) (t : Str) (d : Details)
    (h : optimize R p a = some (t, d)) :
    d.estimated_latency_reduction ≤ 50/100 ∧
    d.estimated_energy_reduction = d.estimated_latency_reduction * (85/100) ∧
    (t.length ≤ p.length → 0 ≤ d.estimated_latency_reduction) ∧
    (R = noRules → 0 ≤ d.estimated_latency_reduction) := by
  obtain ⟨hp, ht, hd⟩ := optimize_some_inv R p a t d h
  have hlow : t.length ≤ p.length → 0 ≤ d.estimated_latency_reduction := by
    intro hlen
    rw [hd]
    have h1 : (0 : ℚ) ≤
        (((p.length : ℚ) - (t.length : ℚ)) / (p.length : ℚ)) * (20/100) +
          ruleImpact ((applyBaseRules p).2 ++
            (learnedStage R (applyBaseRules p).1 a).2) := by
      apply add_nonneg
      · apply mul_nonneg
        · apply div_nonneg
          · rw [sub_nonneg]
            exact_mod_cast hlen
          · positivity
        · norm_num
      · exact ruleImpact_nonneg _
    exact le_min h1 (by norm_num)
  refine ⟨?_, ?_, hlow, ?_⟩
  · rw [hd]
    exact min_le_right _ _
  · rw [hd]
  · intro hR
    apply hlow
    rw [ht, hR, learnedStage_noRules]
    calc (cleanWs ((applyBaseRules p).1)).length
        ≤ ((applyBaseRules p).1).length := cleanWs_length _
      _ ≤ p.length := applyBaseRules_length p

/-- C2 witness: the amended statement applied at the concrete prompt
"hi" with no learned rules. -/
theorem c2_witness :
    optimize noRules (str "hi") false =
      some (str "hi", ⟨2, 2, (2 : Int) - (2 : Int), [], 0, 0, str "maintained"⟩) ∧
    ((0 : ℚ) ≤ 50/100 ∧ (0 : ℚ) = 0 * (85/100) ∧
     ((str "hi").length ≤ (str "hi").length → (0 : ℚ) ≤ 0) ∧
     (noRules = noRules → (0 : ℚ) ≤ 0)) :=
  ⟨optimize_hi,
   c2_amended noRules (str "hi") false (str "hi") _ optimize_hi⟩

/-- C3: in the improvement estimate, the impact sum over the applied
changes equals the sum of the impact weights of exactly the base rule
groups that fired (an in-order, duplicate-free selection from the four
group names), and the synthesized learned-rule tags contribute zero. -/
theorem c3_rule_impact (R : LearnedRules) (p : Str) (a : Bool) (t : Str)
    (d : Details) (h : optimize R p a = some (t, d)) :
    ruleImpact d.changes_applied = (((applyBaseRules p).2).map impactOf).sum ∧
    List.Sublist (applyBaseRules p).2 baseNames ∧
    baseNames.Nodup ∧
    ruleImpact (learnedStage R (applyBaseRules p).1 a).2 = 0 := by
  obtain ⟨hp, ht, hd⟩ := optimize_some_inv R p a t d h
  have hch : d.changes_applied =
      (applyBaseRules p).2 ++ (learnedStage R (applyBaseRules p).1 a).2 := by
    rw [hd]
  have hsub := applyBaseRules_sublist p
  have hzero : ruleImpact (learnedStage R (applyBaseRules p).1 a).2 = 0 := by
    apply ruleImpact_eq_zero
    intro x hx
    exact tag_not_baseName x (learnedStage_shape R _ a x hx)
  refine ⟨?_, hsub, by decide, hzero⟩
  rw [hch, ruleImpact_append, hzero, add_zero]
  apply ruleImpact_of_base
  intro x hx
  exact hsub.subset hx

/-- C3 witness: the statement applied at the concrete prompt
"please help" with no learned rules, where `remove_politeness` fires. -/
theorem c3_witness :
    optimize noRules (str "please help") false =
      some (str "help", ⟨11, 4, (11 : Int) - (4 : Int), [str "remove_politeness"],
        39/220, 663/4400, str "may_be_reduced"⟩) ∧
    (ruleImpact [str "remove_politeness"] =
      (((applyBaseRules (str "please help")).2).map impactOf).sum ∧
     List.Sublist (applyBaseRules (str "please help")).2 baseNames ∧
     baseNames.Nodup ∧
     ruleImpact (learnedStage noRules
       (applyBaseRules (str "please help")).1 false).2 = 0) :=
  ⟨optimize_please_help,
   c3_rule_impact noRules (str "please help") false (str "help") _
     optimize_please_help⟩

/-- C4 counterexample: the stored phrase "EXPLAIN" occurs
case-insensitively in the prompt "explain", yet `optimize` performs no
replacement and records no tag, because the code tests the raw stored
phrase against the lower-cased text (`original in optimized.lower()`),
which fails for any phrase containing an upper-case letter. -/
theorem c4_counterexample :
    isSubstr (lowerStr (str "EXPLAIN")) (lowerStr (str "explain")) = true ∧
    optimize ⟨none, none, some [(str "EXPLAIN", str "x")]⟩ (str "explain") false =
      some (str "explain", ⟨7, 7, (7 : Int) - (7 : Int), [], 0, 0,
        str "maintained"⟩) := by
  refine ⟨by decide, ?_⟩
  refine optimize_eval _ _ _ _ _ 7 7 0 0 (str "maintained")
    (by decide) (by decide) (by decide) (by decide) (by decide) ?_ ?_ ?_
  · rw [show ruleImpact ([] : List Str) = 0 from rfl]
    rw [min_eq_left (by norm_num)]
    norm_num
  · norm_num
  · rw [if_pos (by norm_num)]

/-- C4 amended: an alternatives pair fires exactly when the stored
phrase occurs verbatim in the lower-cased current text (for lower-case
stored phrases this is exactly case-insensitive occurrence); it then
replaces every (leftmost, non-overlapping) case-insensitive occurrence
and records the tag derived from the phrase.  In particular the
case-varied prompt "Explain In Detail the process" triggers the rule
keyed "explain in detail". -/
theorem c4_amended :
    (∀ (phrase repl text : Str),
      applyAlternatives [(phrase, repl)] text =
        if isSubstr phrase (lowerStr text) then
          (gsub (lits phrase) repl text, [tagOfPhrase phrase])
        else (text, [])) ∧
    optimize ⟨none, none, some [(str "explain in detail", str "explain")]⟩
        (str "Explain In Detail the process") false =
      some (str "explain the process",
        ⟨29, 19, (29 : Int) - (19 : Int), [str "replaced_explain_in_detail"],
          2/29, 17/290, str "may_be_reduced"⟩) := by
  constructor
  · intro phrase repl text
    simp only [applyAlternatives, List.foldl_cons, List.foldl_nil, altStep]
    by_cases hs : isSubstr phrase (lowerStr text) = true
    · rw [if_pos hs, if_pos hs]
      simp
    · rw [if_neg hs, if_neg hs]
  · refine optimize_eval _ _ _ _ _ 29 19 (2/29) (17/290) (str "may_be_reduced")
      (by decide) (by decide) (by decide) (by decide) (by decide) ?_ ?_ ?_
    · rw [show ruleImpact [str "replaced_explain_in_detail"] = 0 from rfl]
      rw [min_eq_left (by norm_num)]
      norm_num
    · norm_num
    · rw [if_neg (by norm_num), if_neg (by norm_num)]

/-- C5: keyword removal is gated exactly as claimed — with
`aggressive=False` the removal phase never runs (the learned phase is
just the alternatives phase); the removal fold ignores every keyword
outside the fixed allowlist; and an optimizer whose learned rules
consist of `high_cost_keywords = ["write"]` behaves identically to one
with no learned rules, for every prompt and both flags. -/
theorem c5_allowlist_gating :
    (∀ (R : LearnedRules) (t : Str),
      apply_learned_rules R t false =
        (match R.recommended_alternatives with
         | some alts => applyAlternatives alts t
         | none => (t, []))) ∧
    (∀ (ks : List Str) (t : Str),
      applyRemovals ks t =
        applyRemovals (ks.filter (fun k => decide (k ∈ allowlist))) t) ∧
    (∀ (p : Str) (a : Bool),
      optimize ⟨some [str "write"], none, none⟩ p a = optimize noRules p a) := by
  refine ⟨?_, ?_, ?_⟩
  · intro R t
    cases halt : R.recommended_alternatives with
    | none => simp [apply_learned_rules, halt]
    | some alts => simp [apply_learned_rules, halt]
  · intro ks
    induction ks with
    | nil => intro t; rfl
    | cons k rest ih =>
      intro t
      simp only [List.filter_cons]
      by_cases hk : k ∈ allowlist
      · rw [if_pos (by simpa using hk)]
        show List.foldl remStep (t, []) (k :: rest) =
          List.foldl remStep (t, []) (k :: rest.filter fun k => decide (k ∈ allowlist))
        simp only [List.foldl_cons]
        rw [show rest.foldl remStep (remStep (t, []) k) =
          rest.foldl remStep ((remStep (t, []) k).1, (remStep (t, []) k).2) from rfl]
        rw [show (rest.filter fun k => decide (k ∈ allowlist)).foldl remStep
            (remStep (t, []) k) =
          (rest.filter fun k => decide (k ∈ allowlist)).foldl remStep
            ((remStep (t, []) k).1, (remStep (t, []) k).2) from rfl]
        have ha := foldl_step_acc remStep remStep_acc rest
          (remStep (t, []) k).1 (remStep (t, []) k).2
        have hb := foldl_step_acc remStep remStep_acc
          (rest.filter fun k => decide (k ∈ allowlist))
          (remStep (t, []) k).1 (remStep (t, []) k).2
        have hih := ih (remStep (t, []) k).1
        rw [applyRemovals, applyRemovals] at hih
        apply Prod.ext
        · rw [ha.1, hb.1, hih]
        · rw [ha.2, hb.2, hih]
      · rw [if_neg (by simpa using hk)]
        show List.foldl remStep (t, []) (k :: rest) =
          List.foldl remStep (t, []) (rest.filter fun k => decide (k ∈ allowlist))
        simp only [List.foldl_cons]
        rw [show remStep (t, []) k = (t, []) from by rw [remStep, if_neg hk]]
        have hih := ih t
        rw [applyRemovals, applyRemovals] at hih
        exact hih
  · intro p a
    have hrem : ∀ x : Str, applyRemovals [str "write"] x = (x, []) := by
      intro x
      rw [applyRemovals]
      show remStep (x, []) (str "write") = (x, [])
      rw [remStep, if_neg (by decide)]
    have hls : ∀ x : Str,
        learnedStage ⟨some [str "write"], none, none⟩ x a = (x, []) := by
      intro x
      have htr : LearnedRules.isTruthy ⟨some [str "write"], none, none⟩ = true := rfl
      rw [learnedStage, if_pos htr, apply_learned_rules]
      cases a <;> simp [hrem]
    simp only [optimize, hls, learnedStage_noRules]

/-- C6: the quality classification has exactly the claimed boundaries on
every non-empty original (strictly below 0.10 → "maintained", in
[0.10, 0.25) → "likely_maintained", at or above 0.25 →
"may_be_reduced"), but on an empty original the code divides by zero and
raises (`none`) instead of the claimed magnitude-0 "maintained". -/
theorem c6_quality_boundaries (o t : Str) :
    (o = [] → assess_quality_impact o t = none) ∧
    (o ≠ [] →
      ((|(o.length : ℚ) - (t.length : ℚ)| / (o.length : ℚ) < 1/10 →
          assess_quality_impact o t = some (str "maintained")) ∧
       (1/10 ≤ |(o.length : ℚ) - (t.length : ℚ)| / (o.length : ℚ) →
        |(o.length : ℚ) - (t.length : ℚ)| / (o.length : ℚ) < 25/100 →
          assess_quality_impact o t = some (str "likely_maintained")) ∧
       (25/100 ≤ |(o.length : ℚ) - (t.length : ℚ)| / (o.length : ℚ) →
          assess_quality_impact o t = some (str "may_be_reduced")))) := by
  constructor
  · intro h
    subst h
    rfl
  · intro hne
    have hlen : o.length ≠ 0 := fun h0 => hne (List.length_eq_zero.mp h0)
    refine ⟨?_, ?_, ?_⟩
    · intro hm
      simp only [assess_quality_impact, hlen, if_false, ite_false]
      rw [if_pos hm]
    · intro hm1 hm2
      simp only [assess_quality_impact, hlen, if_false, ite_false]
      rw [if_neg (not_lt.mpr hm1), if_pos hm2]
    · intro hm
      simp only [assess_quality_impact, hlen, if_false, ite_false]
      rw [if_neg (not_lt.mpr (le_trans (by norm_num) hm)), if_neg (not_lt.mpr hm)]

/-- C6 witness: the boundary statement applied at originals of length
100 against optimized lengths 91, 89 and 74, and the zero-length
divergence at the empty original. -/
theorem c6_witness :
    assess_quality_impact (List.replicate 100 'a') (List.replicate 91 'a') =
      some (str "maintained") ∧
    assess_quality_impact (List.replicate 100 'a') (List.replicate 89 'a') =
      some (str "likely_maintained") ∧
    assess_quality_impact (List.replicate 100 'a') (List.replicate 74 'a') =
      some (str "may_be_reduced") ∧
    assess_quality_impact [] [] = none := by
  refine ⟨?_, ?_, ?_, (c6_quality_boundaries [] []).1 rfl⟩
  · exact ((c6_quality_boundaries _ _).2 (by simp)).1
      (by norm_num [List.length_replicate])
  · exact (((c6_quality_boundaries _ _).2 (by simp)).2.1
      (by norm_num [List.length_replicate]) (by norm_num [List.length_replicate]))
  · exact ((c6_quality_boundaries _ _).2 (by simp)).2.2
      (by norm_num [List.length_replicate])

/-- C7: a missing rules file and a raising read/parse both degrade to
the empty mapping without raising, the resulting optimizer behaves
exactly like one constructed with no rules path, and it remains usable:
on every non-empty prompt `optimize` still returns a result. -/
theorem c7_soft_degrade (f : RulesFile) (p : Str) (a : Bool)
    (hf : f = RulesFile.absent ∨ f = RulesFile.malformed) :
    load_rules f = noRules ∧
    optimize (load_rules f) p a = optimize (initLearnedRules none) p a ∧
    (p ≠ [] → ∃ t d, optimize (load_rules f) p a = some (t, d)) := by
  have hr : load_rules f = noRules := by rcases hf with rfl | rfl <;> rfl
  refine ⟨hr, by rw [hr]; rfl, ?_⟩
  intro hne
  have hlen : p.length ≠ 0 := fun h0 => hne (List.length_eq_zero.mp h0)
  rw [hr]
  exact ⟨_, _, optimize_eq_some noRules p a hlen⟩

/-- C7 witness: the statement applied to a malformed rules file and the
concrete prompt "hi". -/
theorem c7_witness :
    load_rules RulesFile.malformed = noRules ∧
    optimize (load_rules RulesFile.malformed) (str "hi") false =
      optimize (initLearnedRules none) (str "hi") false ∧
    ((str "hi") ≠ [] → ∃ t d,
      optimize (load_rules RulesFile.malformed) (str "hi") false = some (t, d)) :=
  c7_soft_degrade RulesFile.malformed (str "hi") false (Or.inr rfl)

/-- C8: every text returned by `optimize` contains no run of two or more
consecutive whitespace characters and has no leading or trailing
whitespace, for every prompt, flag and rules configuration. -/
theorem c8_whitespace_normal (R : LearnedRules) (p : Str) (a : Bool) (t : Str)
    (d : Details) (h : optimize R p a = some (t, d)) :
    noDoubleWs t = true ∧ noEdgeWs t = true := by
  obtain ⟨-, ht, -⟩ := optimize_some_inv R p a t d h
  rw [ht]
  exact ⟨noDoubleWs_cleanWs _, noEdgeWs_cleanWs _⟩

/-- C8 witness: the statement applied at the concrete prompt "hi". -/
theorem c8_witness :
    optimize noRules (str "hi") false =
      some (str "hi", ⟨2, 2, (2 : Int) - (2 : Int), [], 0, 0, str "maintained"⟩) ∧
    (noDoubleWs (str "hi") = true ∧ noEdgeWs (str "hi") = true) :=
  ⟨optimize_hi,
   c8_whitespace_normal noRules (str "hi") false (str "hi") _ optimize_hi⟩

/-- C9 counterexample: the empty string is itself an optimize output
(of the all-whitespace prompt "   ") and matches no base rule pattern
and no learned rule, yet re-running `optimize` on it raises
(`ZeroDivisionError`, modelled by `none`) instead of returning the same
text with an empty applied-changes list. -/
theorem c9_counterexample :
    optimize noRules (str "   ") false =
      some ([], ⟨3, 0, (3 : Int) - (0 : Int), [], 1/5, 17/100,
        str "may_be_reduced"⟩) ∧
    applyBaseRules [] = ([], []) ∧
    learnedStage noRules [] false = ([], []) ∧
    optimize noRules [] false = none := by
  refine ⟨?_, by decide, learnedStage_noRules [] false, optimize_empty noRules false⟩
  refine optimize_eval _ _ _ _ _ 3 0 (1/5) (17/100) (str "may_be_reduced")
    (by decide) (by decide) (by decide) (by decide) rfl ?_ ?_ ?_
  · rw [show ruleImpact ([] : List Str) = 0 from rfl]
    rw [min_eq_left (by norm_num)]
    norm_num
  · norm_num
  · rw [if_neg (by norm_num), if_neg (by norm_num)]

/-- C9 amended: re-running `optimize` on a NON-EMPTY already-optimized
text that matches no base rule pattern and no applicable learned rule
returns the same text unchanged with an empty applied-changes list (and
zero estimated reductions, quality "maintained"). -/
theorem c9_amended (R R2 : LearnedRules) (p2 t : Str) (a a2 : Bool) (d2 : Details)
    (hprev : optimize R2 p2 a2 = some (t, d2))
    (hne : t ≠ [])
    (hbase : applyBaseRules t = (t, []))
    (hlearn : learnedStage R t a = (t, [])) :
    optimize R t a = some (t, ⟨t.length, t.length,
      (t.length : Int) - (t.length : Int), [], 0, 0, str "maintained"⟩) := by
  obtain ⟨-, htc, -⟩ := optimize_some_inv R2 p2 a2 t d2 hprev
  have hfix : cleanWs t = t := by
    rw [htc, cleanWs_idem]
  have hlen : t.length ≠ 0 := fun h0 => hne (List.length_eq_zero.mp h0)
  refine optimize_eval R t a t [] t.length t.length 0 0 (str "maintained")
    rfl hlen ?_ ?_ rfl ?_ (by norm_num) ?_
  · rw [hbase]
    show cleanWs (learnedStage R t a).1 = t
    rw [hlearn]
    exact hfix
  · rw [hbase]
    show ([] : List Str) ++ (learnedStage R t a).2 = []
    rw [hlearn]
    rfl
  · rw [show ruleImpact ([] : List Str) = 0 from rfl]
    rw [sub_self, zero_div, zero_mul, zero_add]
    exact min_eq_left (by norm_num)
  · rw [sub_self, abs_zero, zero_div, if_pos (by norm_num)]

/-- C9 witness: the amended statement applied at the already-optimized
text "hi" (an output of `optimize` on "hi") with no learned rules. -/
theorem c9_witness :
    optimize noRules (str "hi") false =
      some (str "hi", ⟨2, 2, (2 : Int) - (2 : Int), [], 0, 0, str "maintained"⟩) ∧
    (str "hi") ≠ [] ∧
    applyBaseRules (str "hi") = (str "hi", []) ∧
    learnedStage noRules (str "hi") false = (str "hi", []) ∧
    optimize noRules (str "hi") false =
      some (str "hi", ⟨(str "hi").length, (str "hi").length,
        ((str "hi").length : Int) - ((str "hi").length : Int), [], 0, 0,
        str "maintained"⟩) :=
  ⟨optimize_hi, by decide, by decide, learnedStage_noRules _ _,
   c9_amended noRules noRules (str "hi") (str "hi") false false _ optimize_hi
     (by decide) (by decide) (learnedStage_noRules _ _)⟩

/-- C10: for every call, the applied-changes list splits into a prefix
of base group names — an in-order, duplicate-free selection from the
four names — followed only by synthesized learned-rule tags, none of
which is a base group name. -/
theorem c10_changes_structure (R : LearnedRules) (p : Str) (a : Bool) (t : Str)
    (d : Details) (h : optimize R p a = some (t, d)) :
    ∃ bs ls, d.changes_applied = bs ++ ls ∧ List.Sublist bs baseNames ∧
      baseNames.Nodup ∧ ∀ x ∈ ls, x ∉ baseNames := by
  obtain ⟨-, -, hd⟩ := optimize_some_inv R p a t d h
  refine ⟨(applyBaseRules p).2, (learnedStage R (applyBaseRules p).1 a).2,
    by rw [hd], applyBaseRules_sublist p, by decide, ?_⟩
  intro x hx
  exact tag_not_baseName x (learnedStage_shape R _ a x hx)

/-- C10 witness: the statement applied at the concrete prompt
"please help" with no learned rules. -/
theorem c10_witness :
    optimize noRules (str "please help") false =
      some (str "help", ⟨11, 4, (11 : Int) - (4 : Int), [str "remove_politeness"],
        39/220, 663/4400, str "may_be_reduced"⟩) ∧
    ∃ bs ls, [str "remove_politeness"] = bs ++ ls ∧ List.Sublist bs baseNames ∧
      baseNames.Nodup ∧ ∀ x ∈ ls, x ∉ baseNames :=
  ⟨optimize_please_help,
   c10_changes_structure noRules (str "please help") false (str "help") _
     optimize_please_help⟩

end Optimizer

